import Mathlib

/-!
Shallow embedding of `src/mbox_split.py` (a Gmail Takeout mbox splitter).

Python strings are modelled as `List Char`; the Python string operations
used by the source (`strip`, `lower`, `upper`, `replace("..", ".")`,
`split(",")`, substring containment, regex substitution of the illegal
character class) are given explicit executable definitions below, and the
two core functions of the source — `safe_label` and the classification /
routing logic inlined in `main` — are translated line by line.
-/

namespace MboxSplit

/-- Characters for which Python's `str.isspace()` is true; `str.strip()`
with no argument strips exactly these from both ends. -/
def pySpaceChars : List Char :=
  ['\u0009', '\u000A', '\u000B', '\u000C', '\u000D',
   '\u001C', '\u001D', '\u001E', '\u001F', '\u0020',
   '\u0085', '\u00A0', '\u1680',
   '\u2000', '\u2001', '\u2002', '\u2003', '\u2004', '\u2005',
   '\u2006', '\u2007', '\u2008', '\u2009', '\u200A',
   '\u2028', '\u2029', '\u202F', '\u205F', '\u3000']

def pySpace (c : Char) : Bool := pySpaceChars.contains c

/-- The character class of the source's `_ILLEGAL` regex:
`[<>:"/\\|?*\x00-\x1f]`. -/
def illegalChar (c : Char) : Bool :=
  ['<', '>', ':', '\"', '/', '\\', '|', '?', '*'].contains c || c.toNat ≤ 0x1f

/-- Strip from the left all leading characters satisfying `p`
(Python `lstrip`). -/
def lstrip (p : Char → Bool) (l : List Char) : List Char := l.dropWhile p

/-- Strip from the right all trailing characters satisfying `p`
(Python `rstrip`). -/
def rstrip (p : Char → Bool) (l : List Char) : List Char :=
  (l.reverse.dropWhile p).reverse

/-- Python `str.strip`: strip matching characters from both ends. -/
def strip (p : Char → Bool) (l : List Char) : List Char := rstrip p (lstrip p l)

/-- Python `str.lower`, restricted to ASCII case mapping (the substrings
and marker words the source compares against are all ASCII). -/
def pyLower (l : List Char) : List Char := l.map Char.toLower

/-- Python `str.upper`, restricted to ASCII case mapping. -/
def pyUpper (l : List Char) : List Char := l.map Char.toUpper

/-- `_ILLEGAL.sub(".", label)`: replace every illegal character by a
period. -/
def subIllegal (l : List Char) : List Char :=
  l.map (fun c => if illegalChar c then '.' else c)

/-- Python `label.replace("..", ".")`: a single left-to-right pass
replacing non-overlapping occurrences of two periods by one. -/
def replaceDD : List Char → List Char
  | '.' :: '.' :: rest => '.' :: replaceDD rest
  | c :: rest => c :: replaceDD rest
  | [] => []

/-- The character set of `strip(" .")` / `rstrip(" .")`. -/
def dotSpace (c : Char) : Bool := c == ' ' || c == '.'

/-- The source's `_RESERVED` set of Windows reserved device names. -/
def reservedSet : List (List Char) :=
  (["CON", "PRN", "AUX", "NUL",
    "COM1", "COM2", "COM3", "COM4", "COM5", "COM6", "COM7", "COM8", "COM9",
    "LPT1", "LPT2", "LPT3", "LPT4", "LPT5", "LPT6", "LPT7", "LPT8", "LPT9"]
   : List String).map String.toList

/-- `safe_label` from `src/mbox_split.py`, lines 17–27, translated
statement by statement (`maxlen` is passed explicitly; the source's
default is 120). -/
def safe_label (label : List Char) (maxlen : Nat) : List Char :=
  let l1 := strip pySpace label
  let l2 := subIllegal l1
  let l3 := strip dotSpace (replaceDD l2)
  let l4 := if l3 = [] then "Archive".toList else l3
  let l5 := if pyUpper l4 ∈ reservedSet then '_' :: l4 else l4
  if maxlen < l5.length then rstrip dotSpace (l5.take maxlen) else l5

/-- Step 1 of `safe_label`: `label.strip()`. -/
def stripStep (l : List Char) : List Char := strip pySpace l

/-- Step 2 of `safe_label`: `_ILLEGAL.sub(".", label)`. -/
def illegalStep (l : List Char) : List Char := subIllegal l

/-- Step 3 of `safe_label`: `label.replace("..", ".").strip(" .")`. -/
def collapseStep (l : List Char) : List Char := strip dotSpace (replaceDD l)

/-- Step 4 of `safe_label`: empty result falls back to `"Archive"`. -/
def emptyStep (l : List Char) : List Char :=
  if l = [] then "Archive".toList else l

/-- Step 5 of `safe_label`: reserved device names get an underscore
prefixed. -/
def reservedStep (l : List Char) : List Char :=
  if pyUpper l ∈ reservedSet then '_' :: l else l

/-- Step 6 of `safe_label`: truncate to `maxlen` and strip trailing
periods/spaces, when too long. -/
def truncStep (maxlen : Nat) (l : List Char) : List Char :=
  if maxlen < l.length then rstrip dotSpace (l.take maxlen) else l

/-- All of `safe_label` before the final truncation step. -/
def preSanitize (label : List Char) : List Char :=
  reservedStep (emptyStep (collapseStep (illegalStep (stripStep label))))

/-- `needle.isPrefixOf hay`, written out for `List Char`. -/
def startsWith : List Char → List Char → Bool
  | [], _ => true
  | _ :: _, [] => false
  | a :: as, b :: bs => a == b && startsWith as bs

/-- Python's `needle in hay` substring test. -/
def containsSub (needle : List Char) : List Char → Bool
  | [] => needle.isEmpty
  | c :: t => startsWith needle (c :: t) || containsSub needle t

/-- Python `labels.split(",")`: split on every comma, keeping empty
parts; the empty string yields one empty part. -/
def splitComma : List Char → List (List Char)
  | [] => [[]]
  | c :: rest =>
    if c = ',' then [] :: splitComma rest
    else
      match splitComma rest with
      | [] => [[c]]
      | h :: t => (c :: h) :: t

/-- The `ignored` set of `main` (line 85). -/
def ignoredSet : List (List Char) :=
  (["important", "unread", "starred", "newsletters"] : List String).map
    String.toList

/-- The skip condition of `main`'s custom-label loop (line 89):
`if ll in ignored or not ll: continue`. -/
def skipPart (ll : List Char) : Bool := ignoredSet.contains ll || ll.isEmpty

/-- The custom-label scan of `main` (lines 87–94): iterate over the
comma-separated parts in order, strip each, and return the first part
that is neither empty nor an ignored marker (the loop `break`s at the
first hit); `none` means the loop fell through with `saved == False`. -/
def firstCustom : List (List Char) → Option (List Char)
  | [] => none
  | part :: rest =>
    let label := strip pySpace part
    let ll := pyLower label
    if skipPart ll then firstCustom rest else some label

/-- The logical destinations of records (spec §3): the five system
buckets plus custom-label buckets. -/
inductive Bucket
  | inbox
  | sent
  | spam
  | trash
  | archive
  | custom (name : List Char)
deriving DecidableEq, Repr

/-- The classification logic inlined in `main` (lines 67–96), as the
spec's `classify` contract: `None`/empty label → `archive`; otherwise
substring tests on the lowercased whole label with precedence
spam > trash > inbox > sent; otherwise the custom-label scan, falling
back to `archive`. -/
def classify : Option (List Char) → Bucket
  | none => .archive
  | some labels =>
    if labels = [] then .archive
    else
      let lc := pyLower labels
      if containsSub "spam".toList lc then .spam
      else if containsSub "trash".toList lc then .trash
      else if containsSub "inbox".toList lc then .inbox
      else if containsSub "sent".toList lc then .sent
      else
        match firstCustom (splitComma labels) with
        | some lbl => .custom (safe_label lbl 120)
        | none => .archive

/-- Display names used to build filenames (`inbox_fn` … `trash_fn` at
lines 53–57, and the custom filename at line 91). -/
def bucketName : Bucket → List Char
  | .inbox => "Inbox".toList
  | .sent => "Sent".toList
  | .spam => "Spam".toList
  | .trash => "Trash".toList
  | .archive => "Archive".toList
  | .custom n => n

/-- The fixed filename convention: `{prefix}{name}.mbox`. -/
def fileFor (pfx : List Char) (b : Bucket) : List Char :=
  pfx ++ bucketName b ++ ".mbox".toList

/-- Association-list lookup, modelling a Python dict keyed by filename. -/
def alistLookup {β : Type} : List (List Char × β) → List Char → Option β
  | [], _ => none
  | (f, v) :: t, fn => if f = fn then some v else alistLookup t fn

/-- `box_for(fn, boxes).add(raw)` at the contents level: each output
mbox is abstracted as the list of raw records appended to it; a missing
filename is created holding the one record (mbox `create=True` followed
by `add`), an existing one gets the record appended. -/
def addTo {α : Type} : List (List Char × List α) → List Char → α →
    List (List Char × List α)
  | [], fn, r => [(fn, [r])]
  | (f, rs) :: t, fn, r =>
    if f = fn then (f, rs ++ [r]) :: t else (f, rs) :: addTo t fn r

/-- One iteration of `main`'s routing loop (lines 67–96) at the
contents level: the branch structure is copied from the source, each
branch appending the raw record to the file named there. -/
def routeRecord {α : Type} (pfx : List Char)
    (st : List (List Char × List α)) (labels : Option (List Char))
    (r : α) : List (List Char × List α) :=
  match labels with
  | none => addTo st (pfx ++ "Archive.mbox".toList) r
  | some l =>
    if l = [] then addTo st (pfx ++ "Archive.mbox".toList) r
    else
      let lc := pyLower l
      if containsSub "spam".toList lc then
        addTo st (pfx ++ "Spam.mbox".toList) r
      else if containsSub "trash".toList lc then
        addTo st (pfx ++ "Trash.mbox".toList) r
      else if containsSub "inbox".toList lc then
        addTo st (pfx ++ "Inbox.mbox".toList) r
      else if containsSub "sent".toList lc then
        addTo st (pfx ++ "Sent.mbox".toList) r
      else
        match firstCustom (splitComma l) with
        | some lbl => addTo st (pfx ++ (safe_label lbl 120 ++ ".mbox".toList)) r
        | none => addTo st (pfx ++ "Archive.mbox".toList) r

/-- Run state for the stream-identity model of `box_for` (lines 47–52):
`boxes` is the dict from filename to stream handle (handles numbered in
creation order), and `opened` logs every `mailbox.mbox(filename, create=True)`
constructor call. -/
structure RunState where
  boxes : List (List Char × Nat)
  nextId : Nat
  opened : List (List Char)
deriving DecidableEq, Repr

/-- `box_for` (lines 47–52): create the stream on first use of a
filename, afterwards return the stored stream unchanged. -/
def box_for (fn : List Char) (s : RunState) : RunState × Nat :=
  match alistLookup s.boxes fn with
  | some b => (s, b)
  | none =>
    ({ boxes := s.boxes ++ [(fn, s.nextId)],
       nextId := s.nextId + 1,
       opened := s.opened ++ [fn] }, s.nextId)

/-- The empty `boxes = {}` state of line 52. -/
def initState : RunState := ⟨[], 0, []⟩

/-- The sequence of `box_for` calls a run performs, starting from the
empty state. -/
def runCalls (fns : List (List Char)) : RunState :=
  fns.foldl (fun s fn => (box_for fn s).1) initState

/-- Observable teardown events of `main`'s `finally` block
(lines 102–110). -/
inductive TEvent
  | flushOk (b : Nat)
  | flushFail (b : Nat)
  | closeBox (b : Nat)
  | srcClose
deriving DecidableEq, Repr

/-- `try: b.flush() except Exception: pass` — whether the flush fails is
an environment choice `fails`; either way the exception is swallowed and
exactly one flush attempt is logged. -/
def flushAttempt (fails : Nat → Bool) (b : Nat) : List TEvent :=
  if fails b then [.flushFail b] else [.flushOk b]

/-- The `finally` block (lines 102–110): for every opened stream, flush
(best effort) then close; finally `src.close()`. -/
def teardown (streams : List Nat) (fails : Nat → Bool) : List TEvent :=
  streams.flatMap (fun b => flushAttempt fails b ++ [.closeBox b]) ++
    [.srcClose]

/-- The teardown events `main` emits given the processing loop's
outcome: `try ... finally` runs the teardown on normal completion
(`Except.ok`) and on any in-loop error (`Except.error`) alike, so the
events do not depend on the outcome. -/
def mainEvents (outcome : Except Unit Unit) (streams : List Nat)
    (fails : Nat → Bool) : List TEvent :=
  match outcome with
  | .ok _ => teardown streams fails
  | .error _ => teardown streams fails

/-! ### Helper lemmas about the string primitives -/

theorem mem_lstrip {p : Char → Bool} {l : List Char} {c : Char}
    (h : c ∈ lstrip p l) : c ∈ l :=
  (List.dropWhile_sublist p).subset h

theorem mem_rstrip {p : Char → Bool} {l : List Char} {c : Char}
    (h : c ∈ rstrip p l) : c ∈ l := by
  unfold rstrip at h
  rw [List.mem_reverse] at h
  exact List.mem_reverse.mp ((List.dropWhile_sublist p).subset h)

theorem mem_strip {p : Char → Bool} {l : List Char} {c : Char}
    (h : c ∈ strip p l) : c ∈ l :=
  mem_lstrip (mem_rstrip h)

theorem head?_lstrip {p : Char → Bool} {l : List Char} {c : Char}
    (h : (lstrip p l).head? = some c) : p c = false := by
  have hd := List.head?_dropWhile_not p l
  unfold lstrip at h
  rw [h] at hd
  exact hd

theorem lstrip_eq_self {p : Char → Bool} {l : List Char}
    (h : ∀ c, l.head? = some c → p c = false) : lstrip p l = l := by
  cases l with
  | nil => rfl
  | cons a t =>
    unfold lstrip
    rw [List.dropWhile_cons]
    simp [h a rfl]

theorem rstrip_eq_self {p : Char → Bool} {l : List Char}
    (h : ∀ c, l.reverse.head? = some c → p c = false) : rstrip p l = l := by
  have hh : l.reverse.dropWhile p = l.reverse := lstrip_eq_self h
  unfold rstrip
  rw [hh, List.reverse_reverse]

theorem rstrip_append (p : Char → Bool) (l : List Char) :
    l = rstrip p l ++ (l.reverse.takeWhile p).reverse := by
  conv_lhs => rw [← List.reverse_reverse l,
    ← List.takeWhile_append_dropWhile (p := p) (l := l.reverse)]
  rw [List.reverse_append]
  rfl

theorem head?_rstrip {p : Char → Bool} {l : List Char} {c : Char}
    (h : (rstrip p l).head? = some c) : l.head? = some c := by
  have hd := rstrip_append p l
  cases hr : rstrip p l with
  | nil => rw [hr] at h; cases h
  | cons a t =>
    rw [hr] at h
    rw [hd, hr]
    simpa using h

theorem head?_strip {p : Char → Bool} {l : List Char} {c : Char}
    (h : (strip p l).head? = some c) : p c = false :=
  head?_lstrip (head?_rstrip h)

theorem rev_head?_rstrip {p : Char → Bool} {l : List Char} {c : Char}
    (h : (rstrip p l).reverse.head? = some c) : p c = false := by
  unfold rstrip at h
  rw [List.reverse_reverse] at h
  exact head?_lstrip h

theorem rev_head?_strip {p : Char → Bool} {l : List Char} {c : Char}
    (h : (strip p l).reverse.head? = some c) : p c = false :=
  rev_head?_rstrip h

theorem strip_eq_self {p : Char → Bool} {l : List Char}
    (h1 : ∀ c, l.head? = some c → p c = false)
    (h2 : ∀ c, l.reverse.head? = some c → p c = false) : strip p l = l := by
  unfold strip
  rw [lstrip_eq_self h1, rstrip_eq_self h2]

theorem rstrip_nil_all {p : Char → Bool} {l : List Char}
    (h : rstrip p l = []) : ∀ c ∈ l, p c = true := by
  unfold rstrip at h
  rw [List.reverse_eq_nil_iff] at h
  intro c hc
  exact List.dropWhile_eq_nil_iff.mp h c (List.mem_reverse.mpr hc)

theorem length_rstrip_le (p : Char → Bool) (l : List Char) :
    (rstrip p l).length ≤ l.length := by
  unfold rstrip
  rw [List.length_reverse]
  calc (l.reverse.dropWhile p).length ≤ l.reverse.length :=
        (List.dropWhile_sublist p).length_le
    _ = l.length := List.length_reverse l

theorem head?_take_pos {l : List Char} {m : Nat} (hm : 1 ≤ m) :
    (l.take m).head? = l.head? := by
  cases l with
  | nil => simp
  | cons a t =>
    cases m with
    | zero => omega
    | succ n => simp

theorem subIllegal_eq_self {l : List Char}
    (h : ∀ c ∈ l, illegalChar c = false) : subIllegal l = l := by
  induction l with
  | nil => rfl
  | cons a t ih =>
    unfold subIllegal
    simp only [List.map_cons]
    rw [if_neg (by simp [h a (by simp)])]
    have := ih (fun c hc => h c (by simp [hc]))
    unfold subIllegal at this
    rw [this]

theorem mem_subIllegal {l : List Char} {c : Char} (h : c ∈ subIllegal l) :
    illegalChar c = false := by
  unfold subIllegal at h
  rw [List.mem_map] at h
  obtain ⟨a, _, ha⟩ := h
  by_cases hi : illegalChar a
  · rw [if_pos hi] at ha; rw [← ha]; decide
  · rw [if_neg hi] at ha; rw [← ha]; exact Bool.not_eq_true _ ▸ (by simpa using hi)

theorem mem_replaceDD {l : List Char} {c : Char} (h : c ∈ replaceDD l) :
    c ∈ l ∨ c = '.' := by
  induction l using replaceDD.induct with
  | case1 rest ih =>
    rw [replaceDD] at h
    rcases List.mem_cons.mp h with h1 | h1
    · right; exact h1
    · rcases ih h1 with h2 | h2
      · left; simp [h2]
      · right; exact h2
  | case2 a rest hne ih =>
    rw [replaceDD] at h
    · rcases List.mem_cons.mp h with h1 | h1
      · left; simp [h1]
      · rcases ih h1 with h2 | h2
        · left; simp [h2]
        · right; exact h2
    · exact hne
  | case3 =>
    cases h

/-! ### Structural facts about `safe_label` -/

theorem safe_label_eq_steps (x : List Char) (m : Nat) :
    safe_label x m = truncStep m (preSanitize x) := rfl

theorem underscore_not_reserved (u : List Char) : ('_' :: u) ∉ reservedSet := by
  intro h
  have h2 : ∀ r ∈ reservedSet, r.head? ≠ some '_' := by decide
  exact h2 _ h rfl

theorem pyUpper_cons (c : Char) (l : List Char) :
    pyUpper (c :: l) = Char.toUpper c :: pyUpper l := rfl

theorem emptyStep_ne_nil (l : List Char) : emptyStep l ≠ [] := by
  unfold emptyStep
  split
  · decide
  · assumption

theorem reservedStep_ne_nil {l : List Char} (h : l ≠ []) :
    reservedStep l ≠ [] := by
  unfold reservedStep
  split
  · simp
  · exact h

theorem head?_archive : ("Archive".toList).head? = some 'A' := by decide

theorem head?_emptyStep {l : List Char} {c : Char}
    (hl : ∀ c, l.head? = some c → dotSpace c = false)
    (h : (emptyStep l).head? = some c) : dotSpace c = false := by
  unfold emptyStep at h
  split at h
  · rw [head?_archive] at h
    cases h
    decide
  · exact hl c h

theorem last_emptyStep {l : List Char} {c : Char}
    (hl : ∀ c, l.reverse.head? = some c → dotSpace c = false)
    (h : (emptyStep l).reverse.head? = some c) : dotSpace c = false := by
  unfold emptyStep at h
  split at h
  · have : ("Archive".toList).reverse.head? = some 'e' := by decide
    rw [this] at h
    cases h
    decide
  · exact hl c h

theorem head?_reservedStep {l : List Char} {c : Char}
    (hl : ∀ c, l.head? = some c → dotSpace c = false)
    (h : (reservedStep l).head? = some c) : dotSpace c = false := by
  unfold reservedStep at h
  split at h
  · simp only [List.head?_cons] at h
    cases h
    decide
  · exact hl c h

theorem last_reservedStep {l : List Char} {c : Char} (hne : l ≠ [])
    (hl : ∀ c, l.reverse.head? = some c → dotSpace c = false)
    (h : (reservedStep l).reverse.head? = some c) : dotSpace c = false := by
  unfold reservedStep at h
  split at h
  · rw [List.reverse_cons, List.head?_append] at h
    cases hr : l.reverse.head? with
    | none =>
      rw [List.head?_eq_none_iff] at hr
      exact absurd (List.reverse_eq_nil_iff.mp hr) hne
    | some d =>
      rw [hr] at h
      cases h
      exact hl _ hr
  · exact hl c h

theorem preSanitize_ne_nil (x : List Char) : preSanitize x ≠ [] :=
  reservedStep_ne_nil (emptyStep_ne_nil _)

theorem preSanitize_head (x : List Char) :
    ∀ c, (preSanitize x).head? = some c → dotSpace c = false := by
  intro c h
  exact head?_reservedStep (fun d hd => head?_emptyStep
    (fun e he => head?_strip he) hd) h

theorem preSanitize_last (x : List Char) :
    ∀ c, (preSanitize x).reverse.head? = some c → dotSpace c = false := by
  intro c h
  exact last_reservedStep (emptyStep_ne_nil _)
    (fun d hd => last_emptyStep (fun e he => rev_head?_strip he) hd) h

theorem archive_no_illegal : ∀ c ∈ "Archive".toList, illegalChar c = false := by
  decide

theorem preSanitize_no_illegal (x : List Char) :
    ∀ c ∈ preSanitize x, illegalChar c = false := by
  intro c hc
  unfold preSanitize reservedStep at hc
  have hc4 : c ∈ emptyStep (collapseStep (illegalStep (stripStep x))) ∨
      c = '_' := by
    split at hc
    · rcases List.mem_cons.mp hc with h | h
      · right; exact h
      · left; exact h
    · left; exact hc
  rcases hc4 with hc4 | hc4
  · unfold emptyStep at hc4
    split at hc4
    · exact archive_no_illegal c hc4
    · unfold collapseStep at hc4
      have hc3 := mem_strip hc4
      rcases mem_replaceDD hc3 with h | h
      · exact mem_subIllegal h
      · rw [h]; decide
  · rw [hc4]; decide

theorem preSanitize_not_reserved (x : List Char) :
    pyUpper (preSanitize x) ∉ reservedSet := by
  unfold preSanitize reservedStep
  split
  · rw [pyUpper_cons]
    have : Char.toUpper '_' = '_' := by decide
    rw [this]
    exact underscore_not_reserved _
  · assumption

theorem safe_label_ne_nil (x : List Char) {m : Nat} (hm : 1 ≤ m) :
    safe_label x m ≠ [] := by
  rw [safe_label_eq_steps]
  unfold truncStep
  split
  · intro hy
    have hall := rstrip_nil_all hy
    cases hl5 : preSanitize x with
    | nil => exact preSanitize_ne_nil x hl5
    | cons a t =>
      have ha : dotSpace a = false :=
        preSanitize_head x a (by rw [hl5]; rfl)
      have hmem : a ∈ (preSanitize x).take m := by
        rw [hl5]
        cases m with
        | zero => omega
        | succ n => simp
      rw [hall a hmem] at ha
      cases ha
  · exact preSanitize_ne_nil x

theorem safe_label_no_illegal (x : List Char) (m : Nat) :
    ∀ c ∈ safe_label x m, illegalChar c = false := by
  rw [safe_label_eq_steps]
  unfold truncStep
  split
  · intro c hc
    exact preSanitize_no_illegal x c
      ((List.take_sublist m _).subset (mem_rstrip hc))
  · exact preSanitize_no_illegal x

theorem safe_label_length_le (x : List Char) (m : Nat) :
    (safe_label x m).length ≤ m := by
  rw [safe_label_eq_steps]
  unfold truncStep
  split
  · exact le_trans (length_rstrip_le _ _) (List.length_take_le _ _)
  · omega

theorem safe_label_head (x : List Char) (m : Nat) :
    ∀ c, (safe_label x m).head? = some c → dotSpace c = false := by
  rw [safe_label_eq_steps]
  unfold truncStep
  split
  · intro c h
    have h2 := head?_rstrip h
    cases m with
    | zero => simp at h2
    | succ n =>
      rw [head?_take_pos (by omega)] at h2
      exact preSanitize_head x c h2
  · exact preSanitize_head x

theorem safe_label_last (x : List Char) (m : Nat) :
    ∀ c, (safe_label x m).reverse.head? = some c → dotSpace c = false := by
  rw [safe_label_eq_steps]
  unfold truncStep
  split
  · intro c h
    exact rev_head?_rstrip h
  · exact preSanitize_last x

theorem strip_dotSpace_safe_label (x : List Char) (m : Nat) :
    strip dotSpace (safe_label x m) = safe_label x m :=
  strip_eq_self (safe_label_head x m) (safe_label_last x m)

theorem safe_label_not_reserved_of_short (x : List Char) (m : Nat)
    (h : (preSanitize x).length ≤ m) :
    pyUpper (safe_label x m) ∉ reservedSet := by
  rw [safe_label_eq_steps]
  unfold truncStep
  rw [if_neg (by omega)]
  exact preSanitize_not_reserved x

/-! ### Helper lemmas about routing state -/

theorem lookup_addTo_self {α : Type} (st : List (List Char × List α))
    (fn : List Char) (r : α) :
    alistLookup (addTo st fn r) fn =
      some ((alistLookup st fn).getD [] ++ [r]) := by
  induction st with
  | nil => simp [addTo, alistLookup]
  | cons hd t ih =>
    obtain ⟨f, rs⟩ := hd
    unfold addTo
    by_cases hf : f = fn
    · simp [hf, alistLookup]
    · simp [hf, alistLookup, ih]

theorem lookup_addTo_other {α : Type} (st : List (List Char × List α))
    (fn g : List Char) (r : α) (h : g ≠ fn) :
    alistLookup (addTo st fn r) g = alistLookup st g := by
  have hfn : fn ≠ g := Ne.symm h
  induction st with
  | nil => simp [addTo, alistLookup, hfn]
  | cons hd t ih =>
    obtain ⟨f, rs⟩ := hd
    by_cases hf : f = fn
    · subst hf
      simp [addTo, alistLookup, hfn]
    · simp only [addTo, if_neg hf]
      by_cases hg : f = g
      · simp [alistLookup, hg]
      · simp [alistLookup, hg, ih]

theorem fileFor_archive (pfx : List Char) :
    fileFor pfx .archive = pfx ++ "Archive.mbox".toList := by
  unfold fileFor bucketName
  rw [List.append_assoc]
  rw [show "Archive".toList ++ ".mbox".toList = "Archive.mbox".toList from by
    decide]

theorem fileFor_spam (pfx : List Char) :
    fileFor pfx .spam = pfx ++ "Spam.mbox".toList := by
  unfold fileFor bucketName
  rw [List.append_assoc]
  rw [show "Spam".toList ++ ".mbox".toList = "Spam.mbox".toList from by decide]

theorem fileFor_trash (pfx : List Char) :
    fileFor pfx .trash = pfx ++ "Trash.mbox".toList := by
  unfold fileFor bucketName
  rw [List.append_assoc]
  rw [show "Trash".toList ++ ".mbox".toList = "Trash.mbox".toList from by
    decide]

theorem fileFor_inbox (pfx : List Char) :
    fileFor pfx .inbox = pfx ++ "Inbox.mbox".toList := by
  unfold fileFor bucketName
  rw [List.append_assoc]
  rw [show "Inbox".toList ++ ".mbox".toList = "Inbox.mbox".toList from by
    decide]

theorem fileFor_sent (pfx : List Char) :
    fileFor pfx .sent = pfx ++ "Sent.mbox".toList := by
  unfold fileFor bucketName
  rw [List.append_assoc]
  rw [show "Sent".toList ++ ".mbox".toList = "Sent.mbox".toList from by decide]

theorem fileFor_custom (pfx n : List Char) :
    fileFor pfx (.custom n) = pfx ++ (n ++ ".mbox".toList) := by
  unfold fileFor bucketName
  rw [List.append_assoc]

theorem routeRecord_eq {α : Type} (pfx : List Char)
    (st : List (List Char × List α)) (labels : Option (List Char)) (r : α) :
    routeRecord pfx st labels r =
      addTo st (fileFor pfx (classify labels)) r := by
  cases labels with
  | none => simp only [routeRecord, classify, fileFor_archive]
  | some l =>
    by_cases hl : l = []
    · simp only [routeRecord, classify, if_pos hl, fileFor_archive]
    · simp only [routeRecord, classify, if_neg hl]
      by_cases h1 : containsSub "spam".toList (pyLower l) = true
      · simp only [h1, if_true, fileFor_spam]
      · rw [Bool.not_eq_true] at h1
        simp only [h1, Bool.false_eq_true, if_false]
        by_cases h2 : containsSub "trash".toList (pyLower l) = true
        · simp only [h2, if_true, fileFor_trash]
        · rw [Bool.not_eq_true] at h2
          simp only [h2, Bool.false_eq_true, if_false]
          by_cases h3 : containsSub "inbox".toList (pyLower l) = true
          · simp only [h3, if_true, fileFor_inbox]
          · rw [Bool.not_eq_true] at h3
            simp only [h3, Bool.false_eq_true, if_false]
            by_cases h4 : containsSub "sent".toList (pyLower l) = true
            · simp only [h4, if_true, fileFor_sent]
            · rw [Bool.not_eq_true] at h4
              simp only [h4, Bool.false_eq_true, if_false]
              cases hfc : firstCustom (splitComma l) with
              | none => simp only [fileFor_archive]
              | some lbl => simp only [fileFor_custom]

/-- The invariant of the run's `boxes` map: the open log has no
duplicates and lists exactly the filenames present in the map. -/
def goodState (s : RunState) : Prop :=
  s.opened.Nodup ∧ ∀ f, f ∈ s.opened ↔ (alistLookup s.boxes f).isSome

theorem alistLookup_append_single {β : Type} (l : List (List Char × β))
    (fn g : List Char) (v : β) :
    alistLookup (l ++ [(fn, v)]) g =
      match alistLookup l g with
      | some w => some w
      | none => if fn = g then some v else none := by
  induction l with
  | nil => simp [alistLookup]
  | cons hd t ih =>
    obtain ⟨f, w⟩ := hd
    by_cases hf : f = g
    · simp [alistLookup, hf]
    · simp [alistLookup, hf, ih]

theorem goodState_box_for (fn : List Char) (s : RunState)
    (h : goodState s) : goodState (box_for fn s).1 := by
  unfold box_for
  cases hl : alistLookup s.boxes fn with
  | some b => exact h
  | none =>
    have hfn : fn ∉ s.opened := by
      intro hmem
      have := (h.2 fn).mp hmem
      rw [hl] at this
      simp at this
    constructor
    · simp [List.nodup_append, h.1, List.disjoint_singleton, hfn]
    · intro f
      simp only [List.mem_append, List.mem_singleton,
        alistLookup_append_single]
      cases hf : alistLookup s.boxes f with
      | some w =>
        have : f ∈ s.opened := (h.2 f).mpr (by simp [hf])
        simp [this]
      | none =>
        have hno : f ∉ s.opened := by
          intro hm
          have := (h.2 f).mp hm
          rw [hf] at this
          simp at this
        by_cases hfe : fn = f
        · subst hfe
          simp
        · simp [hno, hfe, Ne.symm hfe]

theorem goodState_init : goodState initState := by
  constructor
  · exact List.nodup_nil
  · intro f
    simp [initState, alistLookup]

theorem goodState_runCalls (fns : List (List Char)) :
    goodState (runCalls fns) := by
  have aux : ∀ s, goodState s →
      goodState (fns.foldl (fun s fn => (box_for fn s).1) s) := by
    induction fns with
    | nil => intro s hs; exact hs
    | cons a t ih =>
      intro s hs
      exact ih _ (goodState_box_for a s hs)
  exact aux initState goodState_init

/-! ### Helper lemmas about teardown -/

theorem teardown_decomp (streams : List Nat) (fails : Nat → Bool) (b : Nat)
    (h : b ∈ streams) :
    ∃ pre post, teardown streams fails =
      pre ++ (flushAttempt fails b ++ [TEvent.closeBox b]) ++ post := by
  induction streams with
  | nil => cases h
  | cons a t ih =>
    rcases List.mem_cons.mp h with h1 | h1
    · refine ⟨[], t.flatMap (fun c => flushAttempt fails c ++
        [TEvent.closeBox c]) ++ [TEvent.srcClose], ?_⟩
      simp [teardown, h1, List.append_assoc]
    · obtain ⟨pre, post, hp⟩ := ih h1
      refine ⟨flushAttempt fails a ++ [TEvent.closeBox a] ++ pre, post, ?_⟩
      unfold teardown at hp ⊢
      simp only [List.flatMap_cons, List.append_assoc] at hp ⊢
      rw [hp]

theorem srcClose_mem_teardown (streams : List Nat) (fails : Nat → Bool) :
    TEvent.srcClose ∈ teardown streams fails := by
  unfold teardown
  simp

/-! ### The custom-label scan as a first-match search -/

theorem firstCustom_eq_find? (parts : List (List Char)) :
    firstCustom parts =
      (parts.map (strip pySpace)).find? (fun l => !skipPart (pyLower l)) := by
  induction parts with
  | nil => rfl
  | cons part rest ih =>
    unfold firstCustom
    by_cases h : skipPart (pyLower (strip pySpace part)) = true
    · simp [h, ih]
    · rw [Bool.not_eq_true] at h
      simp [h]

/-! ### Claim theorems -/

set_option maxRecDepth 100000

/-- Claim C1: for every present, non-empty label string, classification is
decided on the lowercase form of the whole string by substring containment
with precedence spam > trash > inbox > sent, first match wins. -/
theorem classify_spam_precedence (s : List Char) (hne : s ≠ []) :
    (containsSub "spam".toList (pyLower s) = true →
      classify (some s) = .spam) ∧
    (containsSub "spam".toList (pyLower s) = false →
      containsSub "trash".toList (pyLower s) = true →
      classify (some s) = .trash) ∧
    (containsSub "spam".toList (pyLower s) = false →
      containsSub "trash".toList (pyLower s) = false →
      containsSub "inbox".toList (pyLower s) = true →
      classify (some s) = .inbox) ∧
    (containsSub "spam".toList (pyLower s) = false →
      containsSub "trash".toList (pyLower s) = false →
      containsSub "inbox".toList (pyLower s) = false →
      containsSub "sent".toList (pyLower s) = true →
      classify (some s) = .sent) := by
  refine ⟨?_, ?_, ?_, ?_⟩
  · intro h1
    unfold classify
    simp only [if_neg hne]
    rw [if_pos h1]
  · intro h1 h2
    have h1' : ¬(containsSub "spam".toList (pyLower s) = true) := by
      rw [h1]; simp
    unfold classify
    simp only [if_neg hne]
    rw [if_neg h1', if_pos h2]
  · intro h1 h2 h3
    have h1' : ¬(containsSub "spam".toList (pyLower s) = true) := by
      rw [h1]; simp
    have h2' : ¬(containsSub "trash".toList (pyLower s) = true) := by
      rw [h2]; simp
    unfold classify
    simp only [if_neg hne]
    rw [if_neg h1', if_neg h2', if_pos h3]
  · intro h1 h2 h3 h4
    have h1' : ¬(containsSub "spam".toList (pyLower s) = true) := by
      rw [h1]; simp
    have h2' : ¬(containsSub "trash".toList (pyLower s) = true) := by
      rw [h2]; simp
    have h3' : ¬(containsSub "inbox".toList (pyLower s) = true) := by
      rw [h3]; simp
    unfold classify
    simp only [if_neg hne]
    rw [if_neg h1', if_neg h2', if_neg h3', if_pos h4]

theorem classify_spam_precedence_witness :
    ("Spam, Inbox".toList ≠ ([] : List Char)) ∧
    containsSub "spam".toList (pyLower "Spam, Inbox".toList) = true ∧
    classify (some "Spam, Inbox".toList) = .spam :=
  ⟨by decide, by decide,
   (classify_spam_precedence "Spam, Inbox".toList (by decide)).1 (by decide)⟩

/-- Claim C2: a record whose label field is absent, and likewise one whose
label is the empty string, classifies to the Archive bucket. -/
theorem classify_absent_or_empty :
    classify none = Bucket.archive ∧
    classify (some "".toList) = Bucket.archive := by
  exact ⟨rfl, by decide⟩

/-- Claim C3: for a non-empty label matching no system substring, the
label is split on commas, each part trimmed, parts scanned in source order
skipping empty or ignored parts; the first survivor gives the single
bucket `custom (sanitize part)`, otherwise Archive; in particular
`classify "Important, Unread" = archive`. -/
theorem classify_custom_scan (s : List Char) (hne : s ≠ [])
    (h1 : containsSub "spam".toList (pyLower s) = false)
    (h2 : containsSub "trash".toList (pyLower s) = false)
    (h3 : containsSub "inbox".toList (pyLower s) = false)
    (h4 : containsSub "sent".toList (pyLower s) = false) :
    classify (some s) =
      (match ((splitComma s).map (strip pySpace)).find?
          (fun l => !skipPart (pyLower l)) with
       | some p => Bucket.custom (safe_label p 120)
       | none => Bucket.archive) ∧
    classify (some "Important, Unread".toList) = Bucket.archive := by
  constructor
  · rw [← firstCustom_eq_find?]
    have h1' : ¬(containsSub "spam".toList (pyLower s) = true) := by
      rw [h1]; simp
    have h2' : ¬(containsSub "trash".toList (pyLower s) = true) := by
      rw [h2]; simp
    have h3' : ¬(containsSub "inbox".toList (pyLower s) = true) := by
      rw [h3]; simp
    have h4' : ¬(containsSub "sent".toList (pyLower s) = true) := by
      rw [h4]; simp
    unfold classify
    simp only [if_neg hne]
    rw [if_neg h1', if_neg h2', if_neg h3', if_neg h4']
  · decide

theorem classify_custom_scan_witness :
    ("Alpha, Beta".toList ≠ ([] : List Char)) ∧
    classify (some "Alpha, Beta".toList) =
      (match ((splitComma "Alpha, Beta".toList).map (strip pySpace)).find?
          (fun l => !skipPart (pyLower l)) with
       | some p => Bucket.custom (safe_label p 120)
       | none => Bucket.archive) :=
  ⟨by decide,
   (classify_custom_scan "Alpha, Beta".toList (by decide) (by decide)
     (by decide) (by decide) (by decide)).1⟩

/-- Claim C4 is refuted as stated: the reserved-device-name guarantee
fails once truncation occurs (a label whose first `maxLength` characters
are `CON` followed by spaces truncates and right-strips back to the
reserved name `CON`, at the default `maxLength` of 120), and the
non-emptiness guarantee fails for `maxLength = 0`. -/
theorem safe_label_guarantees_cex :
    pyUpper (safe_label ("CON".toList ++ List.replicate 117 ' ' ++ ['x'])
      120) ∈ reservedSet ∧
    safe_label ['a'] 0 = [] := by
  exact ⟨by decide, by decide⟩

/-- Claim C4 (amended): for every input and every `maxLength ≥ 1`, the
output of sanitize is non-empty, contains no illegal character, and has
length at most `maxLength`; it is moreover not a reserved device name
whenever no truncation occurs (the pre-truncation result already fits in
`maxLength`); and a string of 200 'a' characters sanitizes to exactly
120 characters under the default `maxLength`. -/
theorem safe_label_guarantees (x : List Char) (m : Nat) (hm : 1 ≤ m) :
    safe_label x m ≠ [] ∧
    (∀ c ∈ safe_label x m, illegalChar c = false) ∧
    (safe_label x m).length ≤ m ∧
    ((preSanitize x).length ≤ m → pyUpper (safe_label x m) ∉ reservedSet) ∧
    (safe_label (List.replicate 200 'a') 120).length = 120 :=
  ⟨safe_label_ne_nil x hm, safe_label_no_illegal x m,
   safe_label_length_le x m, safe_label_not_reserved_of_short x m,
   by decide⟩

theorem safe_label_guarantees_witness :
    1 ≤ 120 ∧
    (safe_label "Projects".toList 120 ≠ [] ∧
     (∀ c ∈ safe_label "Projects".toList 120, illegalChar c = false) ∧
     (safe_label "Projects".toList 120).length ≤ 120 ∧
     ((preSanitize "Projects".toList).length ≤ 120 →
       pyUpper (safe_label "Projects".toList 120) ∉ reservedSet) ∧
     (safe_label (List.replicate 200 'a') 120).length = 120) :=
  ⟨by decide, safe_label_guarantees "Projects".toList 120 (by decide)⟩

/-- Claim C5 is refuted as stated: sanitize is not idempotent, because
the source collapses periods with a single non-overlapping
`replace("..", ".")` pass; `"a...b"` sanitizes to `"a..b"`, which
sanitizes again to `"a.b"`. -/
theorem safe_label_idem_cex :
    safe_label (safe_label "a...b".toList 120) 120 ≠
      safe_label "a...b".toList 120 := by
  decide

/-- Claim C5 (amended): sanitize is idempotent on every input whose
sanitized form is stable under whitespace stripping, contains no two
consecutive periods (stable under the period-collapse pass), and is not
case-insensitively a reserved device name. -/
theorem safe_label_idem_of_stable (x : List Char)
    (h1 : strip pySpace (safe_label x 120) = safe_label x 120)
    (h2 : replaceDD (safe_label x 120) = safe_label x 120)
    (h3 : pyUpper (safe_label x 120) ∉ reservedSet) :
    safe_label (safe_label x 120) 120 = safe_label x 120 := by
  have hni : subIllegal (safe_label x 120) = safe_label x 120 :=
    subIllegal_eq_self (safe_label_no_illegal x 120)
  have hsd := strip_dotSpace_safe_label x 120
  have hne : safe_label x 120 ≠ [] := safe_label_ne_nil x (by omega)
  have hlen := safe_label_length_le x 120
  rw [safe_label_eq_steps (safe_label x 120) 120]
  unfold preSanitize stripStep illegalStep collapseStep
  rw [h1, hni, h2, hsd]
  unfold emptyStep
  rw [if_neg hne]
  unfold reservedStep
  rw [if_neg h3]
  unfold truncStep
  rw [if_neg (by omega)]

theorem safe_label_idem_of_stable_witness :
    (strip pySpace (safe_label "Hello".toList 120) =
      safe_label "Hello".toList 120) ∧
    (replaceDD (safe_label "Hello".toList 120) =
      safe_label "Hello".toList 120) ∧
    (pyUpper (safe_label "Hello".toList 120) ∉ reservedSet) ∧
    safe_label (safe_label "Hello".toList 120) 120 =
      safe_label "Hello".toList 120 :=
  ⟨by decide, by decide, by decide,
   safe_label_idem_of_stable "Hello".toList (by decide) (by decide)
     (by decide)⟩

/-- Claim C6: `sanitize("") = "Archive"`; `sanitize("CON") = "_CON"`;
the reserved-name check runs on the sanitized name before the
length-truncation step (so `safe_label "CON" 3 = "_CO"`: underscore
first, truncation after); and `sanitize("a/b:c")` contains no '/' or
':'. -/
theorem safe_label_examples_and_step_order :
    safe_label "".toList 120 = "Archive".toList ∧
    safe_label "CON".toList 120 = "_CON".toList ∧
    (∀ x m, safe_label x m =
      truncStep m (reservedStep (emptyStep (collapseStep
        (illegalStep (stripStep x)))))) ∧
    safe_label "CON".toList 3 = "_CO".toList ∧
    ('/' ∉ safe_label "a/b:c".toList 120 ∧
     ':' ∉ safe_label "a/b:c".toList 120) :=
  ⟨by decide, by decide, fun _ _ => rfl, by decide, by decide⟩

/-- Claim C7: every record is routed to exactly one bucket and its raw
bytes are appended, unmodified, to exactly one output file, named
`{prefix}{BucketDisplayName}.mbox` for system buckets and
`{prefix}{sanitizedCustomName}.mbox` for custom buckets: the loop body
equals appending the raw record to the file of `classify`'s bucket, that
file gains exactly the raw record, and every other file is untouched. -/
theorem route_single_file {α : Type} (pfx : List Char)
    (st : List (List Char × List α)) (labels : Option (List Char))
    (r : α) :
    routeRecord pfx st labels r =
      addTo st (fileFor pfx (classify labels)) r ∧
    alistLookup (routeRecord pfx st labels r)
        (fileFor pfx (classify labels)) =
      some ((alistLookup st (fileFor pfx (classify labels))).getD []
        ++ [r]) ∧
    (∀ g, g ≠ fileFor pfx (classify labels) →
      alistLookup (routeRecord pfx st labels r) g = alistLookup st g) := by
  refine ⟨routeRecord_eq pfx st labels r, ?_, ?_⟩
  · rw [routeRecord_eq]
    exact lookup_addTo_self st _ r
  · intro g hg
    rw [routeRecord_eq]
    exact lookup_addTo_other st _ g r hg

theorem route_single_file_witness :
    ("out_Sent.mbox".toList ≠
      fileFor "out_".toList (classify (some "\\Inbox".toList))) ∧
    routeRecord "out_".toList ([] : List (List Char × List Nat))
        (some "\\Inbox".toList) 7 =
      addTo [] (fileFor "out_".toList (classify (some "\\Inbox".toList)))
        7 ∧
    alistLookup (routeRecord "out_".toList
        ([] : List (List Char × List Nat)) (some "\\Inbox".toList) 7)
        "out_Sent.mbox".toList =
      alistLookup ([] : List (List Char × List Nat))
        "out_Sent.mbox".toList :=
  ⟨by decide, (route_single_file "out_".toList [] (some "\\Inbox".toList)
     7).1,
   (route_single_file "out_".toList [] (some "\\Inbox".toList) 7).2.2
     "out_Sent.mbox".toList (by decide)⟩

/-- Claim C8: each distinct filename is associated with exactly one
output stream: the open log of any run from the empty state has no
duplicates, and `box_for` on an already-present filename returns the
stored stream without changing the state (no second open). -/
theorem box_for_unique_stream (fns : List (List Char)) :
    (runCalls fns).opened.Nodup ∧
    (∀ fn s b, alistLookup s.boxes fn = some b → box_for fn s = (s, b)) := by
  constructor
  · exact (goodState_runCalls fns).1
  · intro fn s b h
    unfold box_for
    rw [h]

theorem box_for_unique_stream_witness :
    (runCalls [['a'], ['a']]).opened.Nodup ∧
    alistLookup (runCalls [['a']]).boxes ['a'] = some 0 ∧
    box_for ['a'] (runCalls [['a']]) = (runCalls [['a']], 0) :=
  ⟨(box_for_unique_stream [['a'], ['a']]).1, by decide,
   (box_for_unique_stream [['a'], ['a']]).2 ['a'] (runCalls [['a']]) 0
     (by decide)⟩

/-- Claim C9: on every exit path of the processing loop — normal
completion or error — every opened stream is flushed then closed (the
flush attempt and the close of each stream appear consecutively in the
teardown events), a failed flush is swallowed and the close still
happens, and the source archive is closed. -/
theorem teardown_releases_all (outcome : Except Unit Unit)
    (streams : List Nat) (fails : Nat → Bool) (b : Nat)
    (hb : b ∈ streams) :
    (∃ pre post, mainEvents outcome streams fails =
      pre ++ (flushAttempt fails b ++ [TEvent.closeBox b]) ++ post) ∧
    TEvent.closeBox b ∈ mainEvents outcome streams fails ∧
    (fails b = true → TEvent.flushFail b ∈ mainEvents outcome streams fails ∧
      TEvent.closeBox b ∈ mainEvents outcome streams fails) ∧
    TEvent.srcClose ∈ mainEvents outcome streams fails := by
  have hme : mainEvents outcome streams fails = teardown streams fails := by
    cases outcome <;> rfl
  obtain ⟨pre, post, hd⟩ := teardown_decomp streams fails b hb
  refine ⟨⟨pre, post, by rw [hme, hd]⟩, ?_, ?_, ?_⟩
  · rw [hme, hd]
    simp
  · intro hf
    constructor
    · rw [hme, hd]
      simp [flushAttempt, hf]
    · rw [hme, hd]
      simp
  · rw [hme]
    exact srcClose_mem_teardown streams fails

theorem teardown_releases_all_witness :
    ((0 : Nat) ∈ [0]) ∧
    ((∃ pre post, mainEvents (.error ()) [0] (fun _ => true) =
      pre ++ (flushAttempt (fun _ => true) 0 ++ [TEvent.closeBox 0]) ++
        post) ∧
    TEvent.closeBox 0 ∈ mainEvents (.error ()) [0] (fun _ => true) ∧
    ((fun _ : Nat => true) 0 = true →
      TEvent.flushFail 0 ∈ mainEvents (.error ()) [0] (fun _ => true) ∧
      TEvent.closeBox 0 ∈ mainEvents (.error ()) [0] (fun _ => true)) ∧
    TEvent.srcClose ∈ mainEvents (.error ()) [0] (fun _ => true)) :=
  ⟨by decide,
   teardown_releases_all (.error ()) [0] (fun _ => true) 0 (by decide)⟩

/-- Claim C10 is refuted as stated: a part made only of "whitespace,
periods, and illegal characters" need not sanitize to `"Archive"` — a
non-ASCII whitespace character such as U+00A0 (Python whitespace, hence
within the claim's character classes) survives sanitization when it is
not at the ends: `safe_label ". ." = " "`. -/
theorem collapsing_label_cex :
    (∀ c ∈ ['.', '\u00A0', '.'],
      pySpace c = true ∨ c = '.' ∨ illegalChar c = true) ∧
    safe_label ['.', '\u00A0', '.'] 120 ≠ "Archive".toList := by
  exact ⟨by decide, by decide⟩

/-- Claim C10 (amended): for any label part consisting entirely of
spaces, periods, and characters of the illegal set (which covers all
ASCII whitespace, control characters being illegal), sanitize returns
the literal `"Archive"`, so the custom bucket's filename collides with
the fallback Archive bucket's filename. -/
theorem collapsing_label_archive (p : List Char)
    (hp : ∀ c ∈ p, c = ' ' ∨ c = '.' ∨ illegalChar c = true) :
    safe_label p 120 = "Archive".toList ∧
    (∀ pfx, fileFor pfx (Bucket.custom (safe_label p 120)) =
      fileFor pfx Bucket.archive) := by
  have h2 : ∀ c ∈ subIllegal (strip pySpace p), dotSpace c = true := by
    intro c hc
    unfold subIllegal at hc
    rw [List.mem_map] at hc
    obtain ⟨a, ha, hfa⟩ := hc
    by_cases hi : illegalChar a = true
    · rw [if_pos hi] at hfa
      rw [← hfa]
      decide
    · rw [Bool.not_eq_true] at hi
      rw [if_neg (by simp [hi])] at hfa
      rcases hp a (mem_strip ha) with h | h | h
      · rw [← hfa, h]; decide
      · rw [← hfa, h]; decide
      · rw [h] at hi; cases hi
  have h3 : ∀ c ∈ replaceDD (subIllegal (strip pySpace p)),
      dotSpace c = true := by
    intro c hc
    rcases mem_replaceDD hc with h | h
    · exact h2 c h
    · rw [h]; decide
  have h4 : strip dotSpace (replaceDD (subIllegal (strip pySpace p))) =
      [] := by
    have hl : lstrip dotSpace (replaceDD (subIllegal (strip pySpace p))) =
        [] := by
      unfold lstrip
      exact List.dropWhile_eq_nil_iff.mpr (fun x hx => h3 x hx)
    calc strip dotSpace (replaceDD (subIllegal (strip pySpace p)))
        = rstrip dotSpace
            (lstrip dotSpace (replaceDD (subIllegal (strip pySpace p)))) :=
          rfl
      _ = rstrip dotSpace [] := by rw [hl]
      _ = [] := rfl
  have harch : safe_label p 120 = "Archive".toList := by
    rw [safe_label_eq_steps]
    unfold preSanitize stripStep illegalStep collapseStep
    rw [h4]
    unfold emptyStep
    rw [if_pos rfl]
    unfold reservedStep
    rw [if_neg (by decide)]
    unfold truncStep
    rw [if_neg (by decide)]
  refine ⟨harch, fun pfx => ?_⟩
  rw [harch]
  rfl

theorem collapsing_label_archive_witness :
    (∀ c ∈ ['?'], c = ' ' ∨ c = '.' ∨ illegalChar c = true) ∧
    safe_label ['?'] 120 = "Archive".toList ∧
    fileFor "split_".toList (Bucket.custom (safe_label ['?'] 120)) =
      fileFor "split_".toList Bucket.archive :=
  ⟨by decide, (collapsing_label_archive ['?'] (by decide)).1,
   (collapsing_label_archive ['?'] (by decide)).2 "split_".toList⟩

end MboxSplit
